import Mathlib

/-!
Verification of the quorum-expression core of the quoracle repository
(src/quorums/quorums.py and src/quorums/strategy.py), shallowly embedded
in Lean.  Python sets of identities become `Finset T`; the lazy iterators
returned by `quorums()` become `List (Finset T)` in enumeration order;
Python floats become `ℚ`; a raised exception becomes `Option.none`.
-/

namespace Quoracle

/-- A replica node, from quorums.py `Node.__init__`.  The class defines no
custom `__eq__` or `__hash__`, so Python compares nodes by object identity;
the field `oid` models that object identity, making two separately
constructed nodes with the same `x` unequal, exactly as in the source. -/
structure Node (T : Type) where
  oid : Nat
  x : T
  read_capacity : ℚ
  write_capacity : ℚ
deriving DecidableEq

/-- The expression tree of quorums.py: `Node` leaves, `Or(es)`, `And(es)`
and `Choose(k, es)`.  The constructor-argument validation performed by the
Python `__init__` methods is modelled separately by `mkOr`, `mkAnd`,
`mkChoose` and by the predicate `wellFormed`. -/
inductive Expr (T : Type) where
  | node : Node T → Expr T
  | or : List (Expr T) → Expr T
  | and : List (Expr T) → Expr T
  | choose : Nat → List (Expr T) → Expr T

/-- `Or.__init__`: raises (here `none`) on an empty child list. -/
def mkOr {T : Type} (es : List (Expr T)) : Option (Expr T) :=
  if es.length = 0 then none else some (Expr.or es)

/-- `And.__init__`: raises (here `none`) on an empty child list. -/
def mkAnd {T : Type} (es : List (Expr T)) : Option (Expr T) :=
  if es.length = 0 then none else some (Expr.and es)

/-- `Choose.__init__`: raises (here `none`) when `k <= 0 or k > len(es)`.
`k` is an `Int` because a Python caller may pass a negative `k`. -/
def mkChoose {T : Type} (k : Int) (es : List (Expr T)) : Option (Expr T) :=
  if k ≤ 0 ∨ k > (es.length : Int) then none else some (Expr.choose k.toNat es)

mutual

/-- The constructor checks of Or/And/Choose, as a predicate on trees:
exactly the trees that the Python constructors can actually build. -/
def wellFormed {T : Type} : Expr T → Bool
  | Expr.node _ => true
  | Expr.or es => decide (es.length ≠ 0) && allWellFormed es
  | Expr.and es => decide (es.length ≠ 0) && allWellFormed es
  | Expr.choose k es => decide (1 ≤ k ∧ k ≤ es.length) && allWellFormed es

/-- All children constructible. -/
def allWellFormed {T : Type} : List (Expr T) → Bool
  | [] => true
  | e :: es => wellFormed e && allWellFormed es

end

/-- `set.union(*subquorums)`: the union of a list of sets.  (In the source
the starred call always receives at least one set; folding from `∅` agrees
with it on every non-empty list.) -/
def unions {T : Type} [DecidableEq T] (l : List (Finset T)) : Finset T :=
  l.foldr (fun q acc => q ∪ acc) ∅

/-- `itertools.product(*lists)` on lists of lists, in the same order:
leftmost factor varies slowest. -/
def listProduct {α : Type} : List (List α) → List (List α)
  | [] => [[]]
  | l :: ls => l.flatMap (fun a => (listProduct ls).map (fun p => a :: p))

/-- `itertools.combinations(l, k)`: all length-`k` sublists of `l`, in the
order itertools yields them (combinations containing the head first). -/
def combos {α : Type} : Nat → List α → List (List α)
  | 0, _ => [[]]
  | _ + 1, [] => []
  | k + 1, a :: l => ((combos k l).map (fun c => a :: c)) ++ combos (k + 1) l

mutual

/-- `Expr.quorums()`: the enumerated quorums, in iterator order.
For `Choose` the source forms combinations of the child *expressions* and
then products of their quorum iterators; forming combinations of the
children's quorum lists instead yields the identical list because
`combos` commutes with `map` (`combos_map` below). -/
def quorums {T : Type} [DecidableEq T] : Expr T → List (Finset T)
  | Expr.node n => [{n.x}]
  | Expr.or es => (quorumsList es).flatten
  | Expr.and es => (listProduct (quorumsList es)).map unions
  | Expr.choose k es =>
      (combos k (quorumsList es)).flatMap (fun c => (listProduct c).map unions)

/-- The children's quorum lists, `[e.quorums() for e in es]`. -/
def quorumsList {T : Type} [DecidableEq T] : List (Expr T) → List (List (Finset T))
  | [] => []
  | e :: es => quorums e :: quorumsList es

end

mutual

/-- `Expr.is_quorum(xs)`: the Boolean recursion of the source
(`self.x in xs`; `any`; `all`; `sum(1 if ... else 0) >= self.k`). -/
def is_quorum {T : Type} [DecidableEq T] : Expr T → Finset T → Bool
  | Expr.node n, xs => decide (n.x ∈ xs)
  | Expr.or es, xs => anyQuorum es xs
  | Expr.and es, xs => allQuorum es xs
  | Expr.choose k es, xs => decide (k ≤ countQuorum es xs)

/-- `any(e.is_quorum(xs) for e in es)`. -/
def anyQuorum {T : Type} [DecidableEq T] : List (Expr T) → Finset T → Bool
  | [], _ => false
  | e :: es, xs => is_quorum e xs || anyQuorum es xs

/-- `all(e.is_quorum(xs) for e in es)`. -/
def allQuorum {T : Type} [DecidableEq T] : List (Expr T) → Finset T → Bool
  | [], _ => true
  | e :: es, xs => is_quorum e xs && allQuorum es xs

/-- `sum(1 if e.is_quorum(xs) else 0 for e in es)`. -/
def countQuorum {T : Type} [DecidableEq T] : List (Expr T) → Finset T → Nat
  | [], _ => 0
  | e :: es, xs => (if is_quorum e xs then 1 else 0) + countQuorum es xs

end

mutual

/-- `Expr.nodes()`: the set of `Node` objects of the tree
(`{self}` at a leaf, `set.union(...)` at the inner variants). -/
def nodes {T : Type} [DecidableEq T] : Expr T → Finset (Node T)
  | Expr.node n => {n}
  | Expr.or es => nodesList es
  | Expr.and es => nodesList es
  | Expr.choose _ es => nodesList es

/-- `set.union(*[e.nodes() for e in es])`. -/
def nodesList {T : Type} [DecidableEq T] : List (Expr T) → Finset (Node T)
  | [] => ∅
  | e :: es => nodes e ∪ nodesList es

end

mutual

/-- `Expr.dual()`: leaf self-dual, Or ↔ And,
`Choose(k, es) ↦ Choose(len(es) − k + 1, [e.dual() for e in es])`. -/
def dual {T : Type} : Expr T → Expr T
  | Expr.node n => Expr.node n
  | Expr.or es => Expr.and (dualList es)
  | Expr.and es => Expr.or (dualList es)
  | Expr.choose k es => Expr.choose (es.length - k + 1) (dualList es)

/-- `[e.dual() for e in es]`. -/
def dualList {T : Type} : List (Expr T) → List (Expr T)
  | [] => []
  | e :: es => dual e :: dualList es

end

/-- The identities of an expression's nodes, `{n.x for n in e.nodes()}`. -/
def identities {T : Type} [DecidableEq T] (e : Expr T) : Finset T :=
  (nodes e).image Node.x

/-- The helper `choose(k, es)` of quorums.py: collapses to `Or` when
`k == 1`, to `And` when `k == len(es)`, else builds `Choose`. -/
def choose {T : Type} (k : Nat) (es : List (Expr T)) : Expr T :=
  if k = 1 then Expr.or es
  else if k = es.length then Expr.and es
  else Expr.choose k es

/-- `majority(es) = choose(len(es) // 2 + 1, es)`. -/
def majority {T : Type} (es : List (Expr T)) : Expr T :=
  choose (es.length / 2 + 1) es

/-- A quorum system: a pair of expressions.  `QuorumSystem.__init__`
branches are modelled by `QuorumSystem.ofReads` (reads only, writes
dualized), `QuorumSystem.ofWrites` (writes only, reads dualized) and
`QuorumSystem.init` (the full four-way branch with the intersection
assertion). -/
structure QuorumSystem (T : Type) where
  reads : Expr T
  writes : Expr T

/-- `QuorumSystem(reads=e)`: writes become `e.dual()`. -/
def QuorumSystem.ofReads {T : Type} (e : Expr T) : QuorumSystem T :=
  ⟨e, dual e⟩

/-- `QuorumSystem(writes=e)`: reads become `e.dual()`. -/
def QuorumSystem.ofWrites {T : Type} (e : Expr T) : QuorumSystem T :=
  ⟨dual e, e⟩

/-- The full `QuorumSystem.__init__`: both sides given → assert every
read/write pair intersects; one side given → dualize; neither → error. -/
def QuorumSystem.init {T : Type} [DecidableEq T] :
    Option (Expr T) → Option (Expr T) → Option (QuorumSystem T)
  | some r, some w =>
      if (quorums r).all (fun rq => (quorums w).all (fun wq => 0 < (rq ∩ wq).card))
      then some ⟨r, w⟩ else none
  | some r, none => some ⟨r, dual r⟩
  | none, some w => some ⟨dual w, w⟩
  | none, none => none

/-- `QuorumSystem.read_quorums()`. -/
def QuorumSystem.read_quorums {T : Type} [DecidableEq T] (qs : QuorumSystem T) :
    List (Finset T) :=
  quorums qs.reads

/-- `QuorumSystem.write_quorums()`. -/
def QuorumSystem.write_quorums {T : Type} [DecidableEq T] (qs : QuorumSystem T) :
    List (Finset T) :=
  quorums qs.writes

/-! ### Basic lemmas about the embedding -/

/-- Strong induction over expression trees, recursing into list children. -/
theorem Expr.ind {T : Type} {motive : Expr T → Prop}
    (hnode : ∀ n, motive (Expr.node n))
    (hor : ∀ es, (∀ e ∈ es, motive e) → motive (Expr.or es))
    (hand : ∀ es, (∀ e ∈ es, motive e) → motive (Expr.and es))
    (hchoose : ∀ k es, (∀ e ∈ es, motive e) → motive (Expr.choose k es)) :
    ∀ e, motive e
  | Expr.node n => hnode n
  | Expr.or es => hor es (fun e h => Expr.ind hnode hor hand hchoose e)
  | Expr.and es => hand es (fun e h => Expr.ind hnode hor hand hchoose e)
  | Expr.choose k es => hchoose k es (fun e h => Expr.ind hnode hor hand hchoose e)
termination_by e => sizeOf e
decreasing_by
  all_goals (have hlt := List.sizeOf_lt_of_mem h; simp; omega)

theorem quorumsList_eq {T : Type} [DecidableEq T] (es : List (Expr T)) :
    quorumsList es = es.map quorums := by
  induction es with
  | nil => simp [quorumsList]
  | cons e es ih => simp [quorumsList, ih]

theorem dualList_eq {T : Type} (es : List (Expr T)) :
    dualList es = es.map dual := by
  induction es with
  | nil => simp [dualList]
  | cons e es ih => simp [dualList, ih]

theorem anyQuorum_eq {T : Type} [DecidableEq T] (es : List (Expr T)) (xs : Finset T) :
    anyQuorum es xs = es.any (fun e => is_quorum e xs) := by
  induction es with
  | nil => simp [anyQuorum]
  | cons e es ih => simp [anyQuorum, ih]

theorem allQuorum_eq {T : Type} [DecidableEq T] (es : List (Expr T)) (xs : Finset T) :
    allQuorum es xs = es.all (fun e => is_quorum e xs) := by
  induction es with
  | nil => simp [allQuorum]
  | cons e es ih => simp [allQuorum, ih]

theorem countQuorum_eq {T : Type} [DecidableEq T] (es : List (Expr T)) (xs : Finset T) :
    countQuorum es xs = es.countP (fun e => is_quorum e xs) := by
  induction es with
  | nil => simp [countQuorum]
  | cons e es ih =>
    simp only [countQuorum, ih, List.countP_cons]
    by_cases h : is_quorum e xs <;> simp [h] <;> omega

theorem mem_nodesList {T : Type} [DecidableEq T] {es : List (Expr T)} {n : Node T} :
    n ∈ nodesList es ↔ ∃ e ∈ es, n ∈ nodes e := by
  induction es with
  | nil => simp [nodesList]
  | cons e es ih => simp [nodesList, ih]

theorem mem_unions {T : Type} [DecidableEq T] {l : List (Finset T)} {a : T} :
    a ∈ unions l ↔ ∃ q ∈ l, a ∈ q := by
  induction l with
  | nil => simp [unions]
  | cons q l ih => simp [unions] at ih ⊢; simp [ih]

theorem unions_subset_iff {T : Type} [DecidableEq T] {l : List (Finset T)} {xs : Finset T} :
    unions l ⊆ xs ↔ ∀ q ∈ l, q ⊆ xs := by
  constructor
  · intro h q hq a ha
    exact h (mem_unions.mpr ⟨q, hq, ha⟩)
  · intro h a ha
    obtain ⟨q, hq, haq⟩ := mem_unions.mp ha
    exact h q hq haq

theorem subset_unions {T : Type} [DecidableEq T] {l : List (Finset T)} {q : Finset T}
    (h : q ∈ l) : q ⊆ unions l :=
  fun a ha => mem_unions.mpr ⟨q, h, ha⟩

theorem mem_listProduct {α : Type} {ls : List (List α)} {p : List α} :
    p ∈ listProduct ls ↔ List.Forall₂ (fun a l => a ∈ l) p ls := by
  induction ls generalizing p with
  | nil => simp [listProduct, List.forall₂_nil_right_iff]
  | cons l ls ih =>
    simp only [listProduct, List.mem_flatMap, List.mem_map]
    constructor
    · rintro ⟨a, ha, p', hp', rfl⟩
      exact List.Forall₂.cons ha (ih.mp hp')
    · intro h
      cases h with
      | cons ha hp' => exact ⟨_, ha, _, ih.mpr hp', rfl⟩

theorem mem_combos {α : Type} {l : List α} {k : Nat} {c : List α} :
    c ∈ combos k l ↔ c.Sublist l ∧ c.length = k := by
  induction l generalizing k c with
  | nil =>
    cases k with
    | zero => simp [combos, List.sublist_nil]
    | succ k =>
      simp only [combos, List.not_mem_nil, false_iff, not_and]
      intro hs
      simp [List.sublist_nil.mp hs]
  | cons a l ih =>
    cases k with
    | zero =>
      simp only [combos, List.mem_singleton]
      constructor
      · rintro rfl; simp
      · rintro ⟨_, hlen⟩; exact List.length_eq_zero.mp hlen
    | succ k =>
      simp only [combos, List.mem_append, List.mem_map, ih]
      constructor
      · rintro (⟨c', ⟨hs, hlen⟩, rfl⟩ | ⟨hs, hlen⟩)
        · exact ⟨List.cons_sublist_cons.mpr hs, by simp [hlen]⟩
        · exact ⟨hs.trans (List.sublist_cons_self a l), hlen⟩
      · rintro ⟨hs, hlen⟩
        rcases List.sublist_cons_iff.mp hs with hs' | ⟨r, rfl, hr⟩
        · exact Or.inr ⟨hs', hlen⟩
        · exact Or.inl ⟨r, ⟨hr, by simpa using hlen⟩, rfl⟩

theorem combos_map {α β : Type} (f : α → β) (k : Nat) (l : List α) :
    combos k (l.map f) = (combos k l).map (List.map f) := by
  induction l generalizing k with
  | nil => cases k <;> simp [combos]
  | cons a l ih =>
    cases k with
    | zero => simp [combos]
    | succ k => simp [combos, ih, Function.comp_def]

/-- `k` children can be selected with property `p` iff at least `k` have it. -/
theorem le_countP_iff {α : Type} {p : α → Bool} {l : List α} {k : Nat} :
    k ≤ l.countP p ↔ ∃ c : List α, c.Sublist l ∧ c.length = k ∧ ∀ a ∈ c, p a = true := by
  constructor
  · intro h
    refine ⟨(l.filter p).take k, ((List.take_sublist _ _).trans (List.filter_sublist l)), ?_, ?_⟩
    · rw [List.length_take, List.countP_eq_length_filter] at *
      omega
    · intro a ha
      exact (List.mem_filter.mp (List.mem_of_mem_take ha)).2
  · rintro ⟨c, hs, hlen, hall⟩
    calc k = c.countP p := by rw [List.countP_eq_length.mpr hall, hlen]
    _ ≤ l.countP p := hs.countP_le p

/-- Skolemization over a list of alternative lists: one pick per list
through `listProduct` versus a pointwise existential. -/
theorem exists_listProduct_iff {T : Type} [DecidableEq T]
    {ls : List (List (Finset T))} {xs : Finset T} :
    (∃ p ∈ listProduct ls, unions p ⊆ xs) ↔ ∀ l ∈ ls, ∃ q ∈ l, q ⊆ xs := by
  induction ls with
  | nil =>
    simp [listProduct, unions]
  | cons l ls ih =>
    constructor
    · rintro ⟨p, hp, hsub⟩
      rcases mem_listProduct.mp hp with _ | ⟨hq, hp'⟩
      rw [unions_subset_iff] at hsub
      intro l' hl'
      rcases List.mem_cons.mp hl' with rfl | hl'
      · exact ⟨_, hq, hsub _ (List.mem_cons_self _ _)⟩
      · refine ih.mp ⟨_, mem_listProduct.mpr hp', ?_⟩ l' hl'
        rw [unions_subset_iff]
        intro q hq'
        exact hsub q (List.mem_cons_of_mem _ hq')
    · intro h
      obtain ⟨q, hq, hqsub⟩ := h l (List.mem_cons_self _ _)
      obtain ⟨p, hp, hpsub⟩ := ih.mpr (fun l' hl' => h l' (List.mem_cons_of_mem _ hl'))
      refine ⟨q :: p, mem_listProduct.mpr (List.Forall₂.cons hq (mem_listProduct.mp hp)), ?_⟩
      rw [unions_subset_iff] at hpsub ⊢
      intro q' hq'
      rcases List.mem_cons.mp hq' with rfl | hq'
      · exact hqsub
      · exact hpsub q' hq'

theorem allWellFormed_eq {T : Type} (es : List (Expr T)) :
    allWellFormed es = es.all wellFormed := by
  induction es with
  | nil => simp [allWellFormed]
  | cons e es ih => simp [allWellFormed, ih]

theorem wellFormed_or_iff {T : Type} {es : List (Expr T)} :
    wellFormed (Expr.or es) = true ↔ es ≠ [] ∧ ∀ e ∈ es, wellFormed e = true := by
  simp [wellFormed, allWellFormed_eq, List.all_eq_true, List.length_eq_zero]

theorem wellFormed_and_iff {T : Type} {es : List (Expr T)} :
    wellFormed (Expr.and es) = true ↔ es ≠ [] ∧ ∀ e ∈ es, wellFormed e = true := by
  simp [wellFormed, allWellFormed_eq, List.all_eq_true, List.length_eq_zero]

theorem wellFormed_choose_iff {T : Type} {k : Nat} {es : List (Expr T)} :
    wellFormed (Expr.choose k es) = true ↔
      (1 ≤ k ∧ k ≤ es.length) ∧ ∀ e ∈ es, wellFormed e = true := by
  simp [wellFormed, allWellFormed_eq, List.all_eq_true]

theorem forall₂_mem_left {α β : Type} {R : α → β → Prop} {p : List α} {l : List β} {a : α}
    (h : List.Forall₂ R p l) (ha : a ∈ p) : ∃ b ∈ l, R a b := by
  induction h with
  | nil => cases ha
  | cons hR _ ih =>
    rcases List.mem_cons.mp ha with rfl | ha'
    · exact ⟨_, List.mem_cons_self _ _, hR⟩
    · obtain ⟨b, hb, hRb⟩ := ih ha'
      exact ⟨b, List.mem_cons_of_mem _ hb, hRb⟩

/-- Boolean consistency, proved by structural induction.  This needs no
well-formedness hypothesis: it also holds for the degenerate trees the
Python constructors reject. -/
theorem is_quorum_iff_aux {T : Type} [DecidableEq T] (e : Expr T) (xs : Finset T) :
    is_quorum e xs = true ↔ ∃ q ∈ quorums e, q ⊆ xs := by
  induction e using Expr.ind with
  | hnode n => simp [is_quorum, quorums]
  | hor es ih =>
    simp only [is_quorum, anyQuorum_eq, quorums, quorumsList_eq, List.any_eq_true,
      List.mem_flatten, List.mem_map]
    constructor
    · rintro ⟨e, he, hq⟩
      obtain ⟨q, hq', hsub⟩ := (ih e he).mp hq
      exact ⟨q, ⟨quorums e, ⟨e, he, rfl⟩, hq'⟩, hsub⟩
    · rintro ⟨q, ⟨_, ⟨e, he, rfl⟩, hq'⟩, hsub⟩
      exact ⟨e, he, (ih e he).mpr ⟨q, hq', hsub⟩⟩
  | hand es ih =>
    simp only [is_quorum, allQuorum_eq, quorums, quorumsList_eq, List.all_eq_true,
      List.mem_map]
    constructor
    · intro h
      have hpt : ∀ l ∈ es.map quorums, ∃ q ∈ l, q ⊆ xs := by
        rintro l hl
        obtain ⟨e, he, rfl⟩ := List.mem_map.mp hl
        exact (ih e he).mp (h e he)
      obtain ⟨p, hp, hsub⟩ := exists_listProduct_iff.mpr hpt
      exact ⟨unions p, ⟨p, hp, rfl⟩, hsub⟩
    · rintro ⟨q, ⟨p, hp, rfl⟩, hsub⟩ e he
      obtain ⟨q', hq', hsub'⟩ :=
        exists_listProduct_iff.mp ⟨p, hp, hsub⟩ (quorums e) (List.mem_map_of_mem _ he)
      exact (ih e he).mpr ⟨q', hq', hsub'⟩
  | hchoose k es ih =>
    simp only [is_quorum, countQuorum_eq, decide_eq_true_eq, quorums, quorumsList_eq,
      List.mem_flatMap, List.mem_map]
    rw [le_countP_iff]
    constructor
    · rintro ⟨c, hs, hlen, hall⟩
      have hpt : ∀ l ∈ c.map quorums, ∃ q ∈ l, q ⊆ xs := by
        rintro l hl
        obtain ⟨e, he, rfl⟩ := List.mem_map.mp hl
        exact (ih e (hs.subset he)).mp (hall e he)
      obtain ⟨p, hp, hsub⟩ := exists_listProduct_iff.mpr hpt
      refine ⟨unions p, ⟨c.map quorums,
        mem_combos.mpr ⟨hs.map quorums, by simp [hlen]⟩, p, hp, rfl⟩, hsub⟩
    · rintro ⟨q, ⟨cq, hcq, p, hp, rfl⟩, hsub⟩
      obtain ⟨hcqs, hcqlen⟩ := mem_combos.mp hcq
      obtain ⟨c, hcs, rfl⟩ := List.sublist_map_iff.mp hcqs
      refine ⟨c, hcs, by simpa using hcqlen, ?_⟩
      intro e he
      obtain ⟨q', hq', hsub'⟩ :=
        exists_listProduct_iff.mp ⟨p, hp, hsub⟩ (quorums e) (List.mem_map_of_mem _ he)
      exact (ih e (hcs.subset he)).mpr ⟨q', hq', hsub'⟩

/-- Quorums obtained as one pick per child, unioned: non-empty and inside
any common bound on the children's quorums. -/
theorem unions_listProduct_aux {T : Type} [DecidableEq T] {es : List (Expr T)} {S : Finset T}
    (hne : es ≠ [])
    (h : ∀ e ∈ es, ∀ q ∈ quorums e, q.Nonempty ∧ q ⊆ S) :
    ∀ p ∈ listProduct (es.map quorums), (unions p).Nonempty ∧ unions p ⊆ S := by
  intro p hp
  have hf := mem_listProduct.mp hp
  constructor
  · have hpne : p ≠ [] := by
      intro hnil
      subst hnil
      rw [List.forall₂_nil_left_iff] at hf
      exact hne (by simpa using hf)
    obtain ⟨q0, hq0⟩ := List.exists_mem_of_ne_nil p hpne
    obtain ⟨l, hl, hq0l⟩ := forall₂_mem_left hf hq0
    obtain ⟨e, he, rfl⟩ := List.mem_map.mp hl
    obtain ⟨a, ha⟩ := (h e he q0 hq0l).1
    exact ⟨a, subset_unions hq0 ha⟩
  · intro a ha
    obtain ⟨qi, hqi, hai⟩ := mem_unions.mp ha
    obtain ⟨l, hl, hqil⟩ := forall₂_mem_left hf hqi
    obtain ⟨e, he, rfl⟩ := List.mem_map.mp hl
    exact (h e he qi hqil).2 hai

theorem identities_mem_subset {T : Type} [DecidableEq T] {es : List (Expr T)} {e : Expr T}
    (he : e ∈ es) : identities e ⊆ (nodesList es).image Node.x := by
  apply Finset.image_subset_image
  intro n hn
  exact mem_nodesList.mpr ⟨e, he, hn⟩

/-- Every enumerated quorum of a constructible expression is non-empty and
draws only on the identities of the expression's nodes. -/
theorem quorums_shape_aux {T : Type} [DecidableEq T] (e : Expr T)
    (hwf : wellFormed e = true) :
    ∀ q ∈ quorums e, q.Nonempty ∧ q ⊆ identities e := by
  induction e using Expr.ind with
  | hnode n =>
    intro q hq
    simp only [quorums, List.mem_singleton] at hq
    subst hq
    simp [identities, nodes]
  | hor es ih =>
    obtain ⟨hne, hall⟩ := wellFormed_or_iff.mp hwf
    intro q hq
    simp only [quorums, quorumsList_eq, List.mem_flatten, List.mem_map] at hq
    obtain ⟨l, ⟨e, he, rfl⟩, hql⟩ := hq
    obtain ⟨hqne, hsub⟩ := ih e he (hall e he) q hql
    refine ⟨hqne, hsub.trans ?_⟩
    simpa [identities, nodes] using identities_mem_subset he
  | hand es ih =>
    obtain ⟨hne, hall⟩ := wellFormed_and_iff.mp hwf
    intro q hq
    simp only [quorums, quorumsList_eq, List.mem_map] at hq
    obtain ⟨p, hp, rfl⟩ := hq
    have := unions_listProduct_aux hne
      (fun e he q hq => by
        obtain ⟨h1, h2⟩ := ih e he (hall e he) q hq
        exact ⟨h1, h2.trans (identities_mem_subset he)⟩) p hp
    simpa [identities, nodes] using this
  | hchoose k es ih =>
    obtain ⟨⟨hk1, hk2⟩, hall⟩ := wellFormed_choose_iff.mp hwf
    intro q hq
    simp only [quorums, quorumsList_eq, List.mem_flatMap, List.mem_map] at hq
    obtain ⟨cq, hcq, p, hp, rfl⟩ := hq
    obtain ⟨hcqs, hcqlen⟩ := mem_combos.mp hcq
    obtain ⟨c, hcs, rfl⟩ := List.sublist_map_iff.mp hcqs
    have hcne : c ≠ [] := by
      intro hnil
      subst hnil
      simp at hcqlen
      omega
    have := unions_listProduct_aux hcne
      (fun e he q hq => by
        obtain ⟨h1, h2⟩ := ih e (hcs.subset he) (hall e (hcs.subset he)) q hq
        exact ⟨h1, h2.trans (identities_mem_subset (hcs.subset he))⟩) p hp
    simpa [identities, nodes] using this

/-! ### Dualization lemmas -/

theorem countP_not_eq {α : Type} (p : α → Bool) (l : List α) :
    l.countP (fun a => !p a) = l.length - l.countP p := by
  induction l with
  | nil => simp
  | cons a l ih =>
    have hlp : l.countP p ≤ l.length := List.countP_le_length p
    by_cases h : p a <;> simp [List.countP_cons, h, ih] <;> omega

theorem nodes_dual {T : Type} [DecidableEq T] (e : Expr T) : nodes (dual e) = nodes e := by
  induction e using Expr.ind with
  | hnode n => simp [dual, nodes]
  | hor es ih =>
    simp only [dual, nodes, dualList_eq]
    apply Finset.ext
    intro n
    rw [mem_nodesList, mem_nodesList]
    constructor
    · rintro ⟨_, hd, hn⟩
      obtain ⟨e, he, rfl⟩ := List.mem_map.mp hd
      exact ⟨e, he, by rwa [ih e he] at hn⟩
    · rintro ⟨e, he, hn⟩
      exact ⟨dual e, List.mem_map_of_mem _ he, by rwa [ih e he]⟩
  | hand es ih =>
    simp only [dual, nodes, dualList_eq]
    apply Finset.ext
    intro n
    rw [mem_nodesList, mem_nodesList]
    constructor
    · rintro ⟨_, hd, hn⟩
      obtain ⟨e, he, rfl⟩ := List.mem_map.mp hd
      exact ⟨e, he, by rwa [ih e he] at hn⟩
    · rintro ⟨e, he, hn⟩
      exact ⟨dual e, List.mem_map_of_mem _ he, by rwa [ih e he]⟩
  | hchoose k es ih =>
    simp only [dual, nodes, dualList_eq]
    apply Finset.ext
    intro n
    rw [mem_nodesList, mem_nodesList]
    constructor
    · rintro ⟨_, hd, hn⟩
      obtain ⟨e, he, rfl⟩ := List.mem_map.mp hd
      exact ⟨e, he, by rwa [ih e he] at hn⟩
    · rintro ⟨e, he, hn⟩
      exact ⟨dual e, List.mem_map_of_mem _ he, by rwa [ih e he]⟩

theorem identities_dual {T : Type} [DecidableEq T] (e : Expr T) :
    identities (dual e) = identities e := by
  simp [identities, nodes_dual]

theorem wellFormed_dual {T : Type} (e : Expr T) (hwf : wellFormed e = true) :
    wellFormed (dual e) = true := by
  induction e using Expr.ind with
  | hnode n => simpa [dual] using hwf
  | hor es ih =>
    obtain ⟨hne, hall⟩ := wellFormed_or_iff.mp hwf
    rw [dual, wellFormed_and_iff, dualList_eq]
    refine ⟨by simpa using hne, ?_⟩
    rintro _ hd
    obtain ⟨e, he, rfl⟩ := List.mem_map.mp hd
    exact ih e he (hall e he)
  | hand es ih =>
    obtain ⟨hne, hall⟩ := wellFormed_and_iff.mp hwf
    rw [dual, wellFormed_or_iff, dualList_eq]
    refine ⟨by simpa using hne, ?_⟩
    rintro _ hd
    obtain ⟨e, he, rfl⟩ := List.mem_map.mp hd
    exact ih e he (hall e he)
  | hchoose k es ih =>
    obtain ⟨⟨hk1, hk2⟩, hall⟩ := wellFormed_choose_iff.mp hwf
    rw [dual, wellFormed_choose_iff, dualList_eq]
    refine ⟨by simp; omega, ?_⟩
    rintro _ hd
    obtain ⟨e, he, rfl⟩ := List.mem_map.mp hd
    exact ih e he (hall e he)

/-- The dual tests the complement: on a constructible expression whose node
identities lie in `U`, `dual(e).is_quorum(xs)` is the negation of
`e.is_quorum(U \ xs)`. -/
theorem is_quorum_dual_aux {T : Type} [DecidableEq T] (e : Expr T)
    (U xs : Finset T) (hwf : wellFormed e = true) (hU : identities e ⊆ U) :
    is_quorum (dual e) xs = !(is_quorum e (U \ xs)) := by
  induction e using Expr.ind with
  | hnode n =>
    have hx : n.x ∈ U := hU (by simp [identities, nodes])
    simp only [dual, is_quorum]
    by_cases h : n.x ∈ xs <;> simp [h, hx]
  | hor es ih =>
    obtain ⟨hne, hall⟩ := wellFormed_or_iff.mp hwf
    have hsub : ∀ e ∈ es, identities e ⊆ U := fun e he =>
      (identities_mem_subset he).trans (by simpa [identities, nodes] using hU)
    simp only [dual, is_quorum, allQuorum_eq, anyQuorum_eq, dualList_eq]
    rw [Bool.eq_iff_iff]
    constructor
    · intro h
      rw [List.all_eq_true] at h
      rw [Bool.not_eq_true', List.any_eq_false]
      intro e he
      have := h (dual e) (List.mem_map_of_mem _ he)
      rw [ih e he (hall e he) (hsub e he)] at this
      simpa using this
    · intro h
      rw [Bool.not_eq_true', List.any_eq_false] at h
      rw [List.all_eq_true]
      rintro _ hd
      obtain ⟨e, he, rfl⟩ := List.mem_map.mp hd
      rw [ih e he (hall e he) (hsub e he)]
      simpa using h e he
  | hand es ih =>
    obtain ⟨hne, hall⟩ := wellFormed_and_iff.mp hwf
    have hsub : ∀ e ∈ es, identities e ⊆ U := fun e he =>
      (identities_mem_subset he).trans (by simpa [identities, nodes] using hU)
    simp only [dual, is_quorum, allQuorum_eq, anyQuorum_eq, dualList_eq]
    rw [Bool.eq_iff_iff]
    constructor
    · intro h
      rw [List.any_eq_true] at h
      obtain ⟨_, hd, hq⟩ := h
      obtain ⟨e, he, rfl⟩ := List.mem_map.mp hd
      rw [ih e he (hall e he) (hsub e he)] at hq
      rw [Bool.not_eq_true', List.all_eq_false]
      exact ⟨e, he, by simpa using hq⟩
    · intro h
      rw [Bool.not_eq_true', List.all_eq_false] at h
      obtain ⟨e, he, hq⟩ := h
      rw [List.any_eq_true]
      refine ⟨dual e, List.mem_map_of_mem _ he, ?_⟩
      rw [ih e he (hall e he) (hsub e he)]
      simpa using hq
  | hchoose k es ih =>
    obtain ⟨⟨hk1, hk2⟩, hall⟩ := wellFormed_choose_iff.mp hwf
    have hsub : ∀ e ∈ es, identities e ⊆ U := fun e he =>
      (identities_mem_subset he).trans (by simpa [identities, nodes] using hU)
    simp only [dual, is_quorum, countQuorum_eq, dualList_eq]
    have hc : List.countP (fun e => is_quorum e xs) (es.map dual)
        = es.length - List.countP (fun e => is_quorum e (U \ xs)) es := by
      rw [List.countP_map]
      have hcong : List.countP (fun e => is_quorum (dual e) xs) es
          = List.countP (fun e => !is_quorum e (U \ xs)) es := by
        apply List.countP_congr
        intro e he
        rw [ih e he (hall e he) (hsub e he)]
      calc List.countP ((fun e => is_quorum e xs) ∘ dual) es
          = List.countP (fun e => is_quorum (dual e) xs) es := rfl
        _ = List.countP (fun e => !is_quorum e (U \ xs)) es := hcong
        _ = es.length - List.countP (fun e => is_quorum e (U \ xs)) es :=
            countP_not_eq _ es
    rw [hc, Bool.eq_iff_iff]
    have hle : es.countP (fun e => is_quorum e (U \ xs)) ≤ es.length :=
      List.countP_le_length (fun e => is_quorum e (U \ xs))
    simp only [decide_eq_true_eq, Bool.not_eq_true', decide_eq_false_iff_not]
    omega

/-- Every quorum of `e` meets every quorum of `dual e`. -/
theorem quorum_inter_dual_aux {T : Type} [DecidableEq T] {e : Expr T}
    (hwf : wellFormed e = true) {r w : Finset T}
    (hr : r ∈ quorums e) (hw : w ∈ quorums (dual e)) : 0 < (r ∩ w).card := by
  by_contra h
  have hempty : r ∩ w = ∅ := Finset.card_eq_zero.mp (by omega)
  have hwq : is_quorum (dual e) w = true :=
    (is_quorum_iff_aux _ _).mpr ⟨w, hw, subset_refl _⟩
  rw [is_quorum_dual_aux e (identities e) w hwf (subset_refl _)] at hwq
  have hrsub : r ⊆ identities e := (quorums_shape_aux e hwf r hr).2
  have : is_quorum e (identities e \ w) = true := by
    apply (is_quorum_iff_aux _ _).mpr
    refine ⟨r, hr, fun a ha => Finset.mem_sdiff.mpr ⟨hrsub ha, fun haw => ?_⟩⟩
    exact (Finset.eq_empty_iff_forall_not_mem.mp hempty a)
      (Finset.mem_inter.mpr ⟨ha, haw⟩)
  rw [this] at hwq
  simp at hwq

/-- Structural dual is an involution on constructible expressions. -/
theorem dual_dual_aux {T : Type} (e : Expr T) (hwf : wellFormed e = true) :
    dual (dual e) = e := by
  induction e using Expr.ind with
  | hnode n => simp [dual]
  | hor es ih =>
    obtain ⟨hne, hall⟩ := wellFormed_or_iff.mp hwf
    simp only [dual, dualList_eq, List.map_map]
    have : es.map (dual ∘ dual) = es.map id :=
      List.map_congr_left (fun e he => ih e he (hall e he))
    rw [this, List.map_id]
  | hand es ih =>
    obtain ⟨hne, hall⟩ := wellFormed_and_iff.mp hwf
    simp only [dual, dualList_eq, List.map_map]
    have : es.map (dual ∘ dual) = es.map id :=
      List.map_congr_left (fun e he => ih e he (hall e he))
    rw [this, List.map_id]
  | hchoose k es ih =>
    obtain ⟨⟨hk1, hk2⟩, hall⟩ := wellFormed_choose_iff.mp hwf
    simp only [dual, dualList_eq, List.map_map, List.length_map]
    have harith : es.length - (es.length - k + 1) + 1 = k := by omega
    have : es.map (dual ∘ dual) = es.map id :=
      List.map_congr_left (fun e he => ih e he (hall e he))
    rw [harith, this, List.map_id]

/-! ### The choose(k, es) helper collapse -/

theorem combos_one {α : Type} (l : List α) : combos 1 l = l.map (fun a => [a]) := by
  induction l with
  | nil => simp [combos]
  | cons a l ih => simp [combos, ih]

theorem combos_nil_of_lt {α : Type} {k : Nat} {l : List α} (h : l.length < k) :
    combos k l = [] := by
  induction l generalizing k with
  | nil =>
    cases k with
    | zero => omega
    | succ k => rfl
  | cons a l ih =>
    cases k with
    | zero => omega
    | succ k =>
      have h1 : l.length < k := by simp at h; omega
      simp [combos, ih h1, ih (Nat.lt_succ_of_lt h1)]

theorem combos_self {α : Type} (l : List α) : combos l.length l = [l] := by
  induction l with
  | nil => simp [combos]
  | cons a l ih =>
    simp [combos, ih, combos_nil_of_lt (Nat.lt_succ_self l.length)]

theorem quorums_choose_one {T : Type} [DecidableEq T] (es : List (Expr T)) :
    quorums (Expr.choose 1 es) = quorums (Expr.or es) := by
  simp only [quorums, combos_one]
  induction (quorumsList es) with
  | nil => simp
  | cons l ls ih =>
    simp only [List.map_cons, List.flatMap_cons, List.flatten_cons, ih]
    congr 1
    simp only [listProduct]
    have h1 : (l.flatMap fun a => ([[a]] : List (List (Finset T)))) = l.map (fun a => [a]) := by
      induction l with
      | nil => rfl
      | cons q l ihl => simp [ihl]
    simp only [List.map_cons, List.map_nil, h1, List.map_map]
    have h2 : ∀ a ∈ l, (unions ∘ fun a => [a]) a = id a := by
      intro a ha
      simp [unions]
    rw [List.map_congr_left h2, List.map_id]

theorem quorums_choose_length {T : Type} [DecidableEq T] (es : List (Expr T)) :
    quorums (Expr.choose es.length es) = quorums (Expr.and es) := by
  have hlen : (quorumsList es).length = es.length := by
    rw [quorumsList_eq]; simp
  simp only [quorums]
  rw [← hlen, combos_self]
  simp

/-! ### Distributions: quorums.py `_canonicalize_distribution` -/

/-- A user-supplied workload distribution: a scalar read fraction (the int
and float branches coincide), a dict from read fraction to weight, or a
list of (fraction, weight) pairs. -/
inductive Distribution where
  | scalar : ℚ → Distribution
  | dict : List (ℚ × ℚ) → Distribution
  | pairs : List (ℚ × ℚ) → Distribution

/-- Python dict insertion: overwrite the value at an existing key keeping
its position, else append the new binding. -/
def dictInsert (m : List (ℚ × ℚ)) (f w : ℚ) : List (ℚ × ℚ) :=
  if m.any (fun p => decide (p.1 = f))
  then m.map (fun p => if p.1 = f then (f, w) else p)
  else m ++ [(f, w)]

/-- The dict comprehension `{f: weight for (f, weight) in d}` over a pair
list: later duplicates overwrite earlier ones. -/
def toDict (l : List (ℚ × ℚ)) : List (ℚ × ℚ) :=
  l.foldl (fun m p => dictInsert m p.1 p.2) []

/-- The dict branch of `_canonicalize_distribution`: reject an empty dict,
a negative weight, and zero total weight — the fractions themselves are not
range-checked here — then drop zero-weight entries and normalize. -/
def canonicalizeDict (d : List (ℚ × ℚ)) : Option (List (ℚ × ℚ)) :=
  if d.length = 0 then none
  else if d.any (fun p => decide (p.2 < 0)) then none
  else if (d.map Prod.snd).sum = 0 then none
  else some ((d.filter (fun p => decide (0 < p.2))).map
      (fun p => (p.1, p.2 / (d.map Prod.snd).sum)))

/-- `_canonicalize_distribution`; a raised ValueError becomes `none`.
Only the scalar branch checks `d < 0 or d > 1`. -/
def _canonicalize_distribution : Distribution → Option (List (ℚ × ℚ))
  | Distribution.scalar d =>
      if d < 0 ∨ 1 < d then none else some [(d, 1)]
  | Distribution.dict d => canonicalizeDict d
  | Distribution.pairs l => canonicalizeDict (toDict l)

/-! ### Strategies: strategy.py `Strategy`, quorums.py `ExplicitStrategy` -/

/-- The strategy record stored by strategy.py `Strategy.__init__`; quorums.py
`ExplicitStrategy.__init__` stores exactly the same fields.  `nodes` is a
list: the iteration order of the Python set of nodes. -/
structure Strategy (T : Type) where
  nodes : List (Node T)
  reads : List (Finset T)
  read_weights : List ℚ
  writes : List (Finset T)
  write_weights : List ℚ

/-- `{node.x: node.read_capacity for node in nodes}` read back at `x`
(0 when `x` is no node's identity; the code only ever looks up present
keys). -/
def Strategy.read_capacity {T : Type} [DecidableEq T] (s : Strategy T) (x : T) : ℚ :=
  match s.nodes.find? (fun n => decide (n.x = x)) with
  | some n => n.read_capacity
  | none => 0

/-- `{node.x: node.write_capacity for node in nodes}` read back at `x`. -/
def Strategy.write_capacity {T : Type} [DecidableEq T] (s : Strategy T) (x : T) : ℚ :=
  match s.nodes.find? (fun n => decide (n.x = x)) with
  | some n => n.write_capacity
  | none => 0

/-- `unweighted_read_load[x] = Σ { wᵢ : x ∈ readQuorumᵢ }` over
`zip(reads, read_weights)`; a defaultdict, so 0 when `x` is absent. -/
def Strategy.unweighted_read_load {T : Type} [DecidableEq T] (s : Strategy T) (x : T) : ℚ :=
  (((s.reads.zip s.read_weights).filter (fun p => decide (x ∈ p.1))).map Prod.snd).sum

/-- `unweighted_write_load[x]`, symmetrically. -/
def Strategy.unweighted_write_load {T : Type} [DecidableEq T] (s : Strategy T) (x : T) : ℚ :=
  (((s.writes.zip s.write_weights).filter (fun p => decide (x ∈ p.1))).map Prod.snd).sum

/-- strategy.py `Strategy._node_load(x, fr)`: the load on `x` at the fixed
read fraction `fr`. -/
def Strategy._node_load {T : Type} [DecidableEq T] (s : Strategy T) (x : T) (fr : ℚ) : ℚ :=
  fr * s.unweighted_read_load x / s.read_capacity x +
    (1 - fr) * s.unweighted_write_load x / s.write_capacity x

/-- strategy.py `Strategy._load(fr) = max(node_load(node.x, fr) for node in
nodes)`; Python's `max` over the non-empty node list, 0 were it empty. -/
def Strategy._load {T : Type} [DecidableEq T] (s : Strategy T) (fr : ℚ) : ℚ :=
  ((s.nodes.map (fun n => s._node_load n.x fr)).max?).getD 0

/-- strategy.py `Strategy.load` applied to an already canonicalized
distribution `d` (the method first canonicalizes its argument through the
distribution module, which is outside quorums.py): `Σ weight · _load(fr)`. -/
def Strategy.load {T : Type} [DecidableEq T] (s : Strategy T) (d : List (ℚ × ℚ)) : ℚ :=
  (d.map (fun p => p.2 * s._load p.1)).sum

/-- strategy.py `Strategy.node_load(node, d) = Σ weight · _node_load(node.x, fr)`. -/
def Strategy.node_load {T : Type} [DecidableEq T] (s : Strategy T) (n : Node T)
    (d : List (ℚ × ℚ)) : ℚ :=
  (d.map (fun p => p.2 * s._node_load n.x p.1)).sum

/-- quorums.py `ExplicitStrategy.load`, after its opening call to
`_canonicalize_distribution`: compute the mean read fraction `fr`, rebuild
the per-node read/write load tables (the same sums as
`unweighted_read_load`/`unweighted_write_load`), then take the worst
per-node load at that single mean fraction.  The `if` guards mirror the
source's `if x in read_load` membership tests on the rebuilt dicts. -/
def ExplicitStrategy.loadCanon {T : Type} [DecidableEq T] (s : Strategy T)
    (d : List (ℚ × ℚ)) : ℚ :=
  ((s.nodes.map (fun n =>
    (if (s.reads.zip s.read_weights).any (fun p => decide (n.x ∈ p.1))
     then (d.map (fun p => p.1 * p.2)).sum
            * s.unweighted_read_load n.x / s.read_capacity n.x else 0) +
    (if (s.writes.zip s.write_weights).any (fun p => decide (n.x ∈ p.1))
     then (1 - (d.map (fun p => p.1 * p.2)).sum)
            * s.unweighted_write_load n.x / s.write_capacity n.x else 0))).max?).getD 0

/-- quorums.py `ExplicitStrategy.load` in full: canonicalize the raw
distribution, then evaluate at the mean read fraction. -/
def ExplicitStrategy.load {T : Type} [DecidableEq T] (s : Strategy T)
    (dist : Distribution) : Option ℚ :=
  (_canonicalize_distribution dist).map (ExplicitStrategy.loadCanon s)

theorem unweighted_read_load_eq_zero {T : Type} [DecidableEq T] (s : Strategy T) (x : T)
    (h : (s.reads.zip s.read_weights).any (fun p => decide (x ∈ p.1)) = false) :
    s.unweighted_read_load x = 0 := by
  unfold Strategy.unweighted_read_load
  rw [List.any_eq_false] at h
  rw [List.filter_eq_nil_iff.mpr (fun a ha => by simpa using h a ha)]
  rfl

theorem unweighted_write_load_eq_zero {T : Type} [DecidableEq T] (s : Strategy T) (x : T)
    (h : (s.writes.zip s.write_weights).any (fun p => decide (x ∈ p.1)) = false) :
    s.unweighted_write_load x = 0 := by
  unfold Strategy.unweighted_write_load
  rw [List.any_eq_false] at h
  rw [List.filter_eq_nil_iff.mpr (fun a ha => by simpa using h a ha)]
  rfl

/-- quorums.py `ExplicitStrategy.load` computes `_load` at the mean read
fraction: skipping a side a node does not appear on equals adding its zero
unweighted load. -/
theorem loadCanon_eq_load_at_mean {T : Type} [DecidableEq T] (s : Strategy T)
    (d : List (ℚ × ℚ)) :
    ExplicitStrategy.loadCanon s d = s._load ((d.map (fun p => p.1 * p.2)).sum) := by
  unfold ExplicitStrategy.loadCanon Strategy._load
  congr 2
  apply List.map_congr_left
  intro n hn
  unfold Strategy._node_load
  congr 1
  · by_cases hb : (s.reads.zip s.read_weights).any (fun p => decide (n.x ∈ p.1)) = true
    · rw [if_pos hb]
    · rw [if_neg hb, unweighted_read_load_eq_zero s n.x (by simpa using hb)]
      simp
  · by_cases hb : (s.writes.zip s.write_weights).any (fun p => decide (n.x ∈ p.1)) = true
    · rw [if_pos hb]
    · rw [if_neg hb, unweighted_write_load_eq_zero s n.x (by simpa using hb)]
      simp

theorem le_max?_getD {l : List ℚ} {a : ℚ} (ha : a ∈ l) : a ≤ (l.max?).getD 0 := by
  induction l with
  | nil => cases ha
  | cons x l ih =>
    rw [List.max?_cons]
    rcases List.mem_cons.mp ha with rfl | ha'
    · cases hl : l.max? with
      | none => simp
      | some m => simp [hl, le_max_left]
    · cases hl : l.max? with
      | none =>
        rw [List.max?_eq_none_iff] at hl
        subst hl
        cases ha'
      | some m =>
        have := ih ha'
        rw [hl] at this
        simp only [hl, Option.elim_some, Option.getD_some] at this ⊢
        exact this.trans (le_max_right x m)

theorem max?_getD_mem {l : List ℚ} (h : l ≠ []) : (l.max?).getD 0 ∈ l := by
  induction l with
  | nil => exact absurd rfl h
  | cons x l ih =>
    rw [List.max?_cons]
    cases hl : l.max? with
    | none => simp
    | some m =>
      have hlne : l ≠ [] := by
        intro hnil
        subst hnil
        simp at hl
      have hm := ih hlne
      rw [hl] at hm
      simp only [Option.getD_some] at hm
      simp only [Option.elim_some, Option.getD_some]
      rcases max_choice x m with hc | hc <;> rw [hc]
      · exact List.mem_cons_self _ _
      · exact List.mem_cons_of_mem _ hm

theorem canonicalizeDict_eq_none_iff (d : List (ℚ × ℚ)) :
    canonicalizeDict d = none ↔
      d = [] ∨ (∃ p ∈ d, p.2 < 0) ∨ (d.map Prod.snd).sum = 0 := by
  unfold canonicalizeDict
  by_cases h1 : d.length = 0
  · simp [h1, List.length_eq_zero.mp h1]
  · rw [if_neg h1]
    have h1' : ¬d = [] := fun hnil => h1 (by simp [hnil])
    by_cases h2 : d.any (fun p => decide (p.2 < 0)) = true
    · rw [if_pos h2]
      rw [List.any_eq_true] at h2
      simp only [decide_eq_true_eq] at h2
      simp [h1', h2]
    · rw [if_neg h2]
      have h2' : (d.any fun p => decide (p.2 < 0)) = false := by
        simpa using h2
      rw [List.any_eq_false] at h2'
      simp only [decide_eq_true_eq] at h2'
      by_cases h3 : (d.map Prod.snd).sum = 0
      · simp [h1', h3]
      · rw [if_neg h3]
        simp only [reduceCtorEq, false_iff]
        push_neg
        exact ⟨h1', fun p hp => not_lt.mp (h2' p hp), h3⟩

/-! ### Concrete instances used by witnesses and counterexamples -/

/-- A capacity-1 node with identity 0. -/
def nodeA : Node Nat := ⟨0, 0, 1, 1⟩

/-- A capacity-1 node with identity 1. -/
def nodeB : Node Nat := ⟨1, 1, 1, 1⟩

/-- A capacity-1 node with identity 2. -/
def nodeC : Node Nat := ⟨2, 2, 1, 1⟩

/-- `majority([a, b, c])` over the three capacity-1 nodes. -/
def majThree : Expr Nat := majority [Expr.node nodeA, Expr.node nodeB, Expr.node nodeC]

/-- A strategy over two capacity-1 nodes placing all read weight on quorum
{0} and all write weight on quorum {1}. -/
def sigmaCE : Strategy Nat := ⟨[nodeA, nodeB], [{0}], [1], [{1}], [1]⟩

/-- A canonicalized two-point workload: half pure reads, half pure writes. -/
def dCE : List (ℚ × ℚ) := [(0, 1/2), (1, 1/2)]

/-! ### The claims -/

/-- Claim C1: for every expression `e` and every set `xs`, `e.is_quorum(xs)`
returns true if and only if `xs` is a superset of some set enumerated by
`e.quorums()`. -/
theorem c1_boolean_consistency {T : Type} [DecidableEq T] (e : Expr T) (xs : Finset T) :
    is_quorum e xs = true ↔ ∃ q ∈ quorums e, q ⊆ xs :=
  is_quorum_iff_aux e xs

/-- Claim C2: for every QuorumSystem constructed from a single side (reads
only, so writes := dual(reads); or writes only, so reads := dual(writes)),
every enumerated read quorum intersects every enumerated write quorum. -/
theorem c2_single_side_intersection {T : Type} [DecidableEq T] (e : Expr T)
    (hwf : wellFormed e = true) :
    (∀ r ∈ (QuorumSystem.ofReads e).read_quorums,
      ∀ w ∈ (QuorumSystem.ofReads e).write_quorums, 0 < (r ∩ w).card) ∧
    (∀ r ∈ (QuorumSystem.ofWrites e).read_quorums,
      ∀ w ∈ (QuorumSystem.ofWrites e).write_quorums, 0 < (r ∩ w).card) := by
  simp only [QuorumSystem.read_quorums, QuorumSystem.write_quorums,
    QuorumSystem.ofReads, QuorumSystem.ofWrites]
  constructor
  · intro r hr w hw
    exact quorum_inter_dual_aux hwf hr hw
  · intro r hr w hw
    have := quorum_inter_dual_aux hwf hw hr
    rwa [Finset.inter_comm] at this

theorem c2_single_side_intersection_witness :
    wellFormed majThree = true ∧
    ((∀ r ∈ (QuorumSystem.ofReads majThree).read_quorums,
       ∀ w ∈ (QuorumSystem.ofReads majThree).write_quorums, 0 < (r ∩ w).card) ∧
     (∀ r ∈ (QuorumSystem.ofWrites majThree).read_quorums,
       ∀ w ∈ (QuorumSystem.ofWrites majThree).write_quorums, 0 < (r ∩ w).card)) :=
  ⟨by decide, c2_single_side_intersection majThree (by decide)⟩

/-- Claim C3: for every (constructible) expression `e`, `dual(dual(e))`
enumerates the same set of quorums (as a set of sets) as `e`, the dual
being structural: Leaf self-dual, Or↔And, and
`Choose(k, es) ↦ Choose(n − k + 1, map(dual, es))` with `n = len(es)`. -/
theorem c3_dual_involution {T : Type} [DecidableEq T] (e : Expr T)
    (hwf : wellFormed e = true) :
    (quorums (dual (dual e))).toFinset = (quorums e).toFinset := by
  rw [dual_dual_aux e hwf]

theorem c3_dual_involution_witness :
    wellFormed majThree = true ∧
    (quorums (dual (dual majThree))).toFinset = (quorums majThree).toFinset :=
  ⟨by decide, c3_dual_involution majThree (by decide)⟩

/-- Claim C4 as stated is false on quorums.py's ExplicitStrategy: with the
strategy σ (all read weight on {0}, all write weight on {1}, two capacity-1
nodes) and the canonicalized distribution {0: 1/2, 1: 1/2}, the expected
worst-case per-node load Σ_f d(f)·maxₓ node_load(x, f) is 1, but
ExplicitStrategy's load — the worst case at the mean fraction 1/2 — is 1/2. -/
theorem c4_load_counterexample :
    ExplicitStrategy.loadCanon sigmaCE dCE ≠
      (dCE.map (fun p => p.2 *
        ((sigmaCE.nodes.map (fun n => sigmaCE._node_load n.x p.1)).max?).getD 0)).sum := by
  simp [ExplicitStrategy.loadCanon, Strategy._node_load, Strategy.unweighted_read_load,
    Strategy.unweighted_write_load, Strategy.read_capacity, Strategy.write_capacity,
    sigmaCE, dCE, nodeA, nodeB, List.find?]
  norm_num

/-- Claim C4 amended: strategy.py's Strategy.load is the expected
worst-case per-node load `Σ_f d(f) · _load(f)` where `_load(f)` is exactly
`maxₓ node_load(x, f)` over the strategy's nodes; quorums.py's
ExplicitStrategy.load instead evaluates that worst case once, at the mean
read fraction `Σ_f f · d(f)`. -/
theorem c4_load_semantics {T : Type} [DecidableEq T] (s : Strategy T)
    (d : List (ℚ × ℚ)) (h : s.nodes ≠ []) :
    (∀ f : ℚ, (∀ n ∈ s.nodes, s._node_load n.x f ≤ s._load f) ∧
       ∃ n ∈ s.nodes, s._load f = s._node_load n.x f) ∧
    Strategy.load s d = (d.map (fun p => p.2 * s._load p.1)).sum ∧
    ExplicitStrategy.loadCanon s d = s._load ((d.map (fun p => p.1 * p.2)).sum) := by
  refine ⟨?_, rfl, loadCanon_eq_load_at_mean s d⟩
  intro f
  constructor
  · intro n hn
    exact le_max?_getD (List.mem_map_of_mem _ hn)
  · have hne : s.nodes.map (fun n => s._node_load n.x f) ≠ [] := by
      simpa using h
    obtain ⟨n, hn, heq⟩ := List.mem_map.mp (max?_getD_mem hne)
    exact ⟨n, hn, heq.symm⟩

theorem c4_load_semantics_witness :
    sigmaCE.nodes ≠ [] ∧
    ((∀ f : ℚ, (∀ n ∈ sigmaCE.nodes, sigmaCE._node_load n.x f ≤ sigmaCE._load f) ∧
       ∃ n ∈ sigmaCE.nodes, sigmaCE._load f = sigmaCE._node_load n.x f) ∧
     Strategy.load sigmaCE dCE = (dCE.map (fun p => p.2 * sigmaCE._load p.1)).sum ∧
     ExplicitStrategy.loadCanon sigmaCE dCE =
       sigmaCE._load ((dCE.map (fun p => p.1 * p.2)).sum)) :=
  ⟨by decide, c4_load_semantics sigmaCE dCE (by decide)⟩

/-- Claim C5 as stated is false: the two distinct Node objects carrying the
same identity 5 are unequal (quorums.py's Node defines no value equality),
and nodes() of an Or over the two leaves has two elements, not one. -/
theorem c5_node_equality_counterexample :
    (Node.x (⟨0, 5, 1, 1⟩ : Node Nat) = Node.x (⟨1, 5, 1, 1⟩ : Node Nat)) ∧
    (⟨0, 5, 1, 1⟩ : Node Nat) ≠ (⟨1, 5, 1, 1⟩ : Node Nat) ∧
    (nodes (Expr.or [Expr.node ⟨0, 5, 1, 1⟩, Expr.node ⟨1, 5, 1, 1⟩])).card = 2 := by
  decide

/-- Claim C5 amended: Node equality is Python object identity (two nodes
are equal exactly when they are the same object, oid and all fields alike),
not value equality on the identity x; consequently nodes() counts two
distinct Node objects with the same identity as two elements, collapsing
them to one only when they are one object. -/
theorem c5_node_identity_amended {T : Type} [DecidableEq T] (n₁ n₂ : Node T) :
    (n₁ = n₂ ↔ n₁.oid = n₂.oid ∧ n₁.x = n₂.x ∧
      n₁.read_capacity = n₂.read_capacity ∧ n₁.write_capacity = n₂.write_capacity) ∧
    nodes (Expr.or [Expr.node n₁, Expr.node n₂]) = {n₁, n₂} ∧
    (nodes (Expr.or [Expr.node n₁, Expr.node n₂])).card = if n₁ = n₂ then 1 else 2 := by
  have hset : nodes (Expr.or [Expr.node n₁, Expr.node n₂]) = {n₁, n₂} := by
    simp only [nodes, nodesList, Finset.union_empty]
    ext a
    simp
  refine ⟨?_, hset, ?_⟩
  · constructor
    · rintro rfl
      exact ⟨rfl, rfl, rfl, rfl⟩
    · rintro ⟨h1, h2, h3, h4⟩
      cases n₁
      cases n₂
      simp_all
  · rw [hset]
    by_cases h : n₁ = n₂
    · simp [h]
    · rw [if_neg h]
      exact Finset.card_pair h

/-- Claim C6 as stated is false at the dict input {2: 1}: its read-fraction
value 2 lies outside [0, 1], so the claim demands an error, yet
_canonicalize_distribution succeeds (the dict branch never range-checks
the fraction values). -/
theorem c6_distribution_counterexample :
    ¬ ((_canonicalize_distribution (Distribution.dict [(2, 1)]) = none) ↔
       ([((2:ℚ), (1:ℚ))] = [] ∨ (∃ p ∈ [((2:ℚ), (1:ℚ))], p.2 < 0) ∨
        (([((2:ℚ), (1:ℚ))].map Prod.snd).sum = 0) ∨
        (∃ p ∈ [((2:ℚ), (1:ℚ))], p.1 < 0 ∨ 1 < p.1))) := by
  intro hiff
  have hval : _canonicalize_distribution (Distribution.dict [(2, 1)]) = some [(2, 1)] := by
    simp [_canonicalize_distribution, canonicalizeDict]
  have hnone := hiff.mpr
    (Or.inr (Or.inr (Or.inr ⟨(2, 1), by simp, Or.inr (by norm_num)⟩)))
  rw [hval] at hnone
  simp at hnone

/-- Claim C6 amended: canonicalization fails exactly when the input is
empty, contains a negative weight, or has zero total weight — the range
check on the read-fraction value is applied only in the scalar branch; the
dict and pair-sequence branches accept out-of-range fractions.  A pair
sequence is first collapsed to a dict, later duplicates overwriting
earlier ones. -/
theorem c6_distribution_error_iff (dist : Distribution) :
    (_canonicalize_distribution dist = none) ↔
      (match dist with
       | Distribution.scalar q => q < 0 ∨ 1 < q
       | Distribution.dict d =>
           d = [] ∨ (∃ p ∈ d, p.2 < 0) ∨ (d.map Prod.snd).sum = 0
       | Distribution.pairs l =>
           toDict l = [] ∨ (∃ p ∈ toDict l, p.2 < 0) ∨
             ((toDict l).map Prod.snd).sum = 0) := by
  cases dist with
  | scalar q =>
    simp only [_canonicalize_distribution]
    by_cases h : q < 0 ∨ 1 < q
    · simp [h]
    · simp [h]
  | dict d => exact canonicalizeDict_eq_none_iff d
  | pairs l => exact canonicalizeDict_eq_none_iff (toDict l)

/-- Claim C7: constructing Or or And with an empty child list raises, and
Choose(k, es) raises exactly when k < 1 or k > len(es); construction
succeeds on every other input. -/
theorem c7_constructor_validation {T : Type} (es : List (Expr T)) (k : Int) :
    ((mkOr es).isSome ↔ es ≠ []) ∧ ((mkAnd es).isSome ↔ es ≠ []) ∧
    ((mkChoose k es).isSome ↔ 1 ≤ k ∧ k ≤ (es.length : Int)) := by
  refine ⟨?_, ?_, ?_⟩
  · by_cases h : es.length = 0
    · simp [mkOr, h, List.length_eq_zero.mp h]
    · have h' : es ≠ [] := fun hnil => h (by simp [hnil])
      simp [mkOr, h, h']
  · by_cases h : es.length = 0
    · simp [mkAnd, h, List.length_eq_zero.mp h]
    · have h' : es ≠ [] := fun hnil => h (by simp [hnil])
      simp [mkAnd, h, h']
  · by_cases h : k ≤ 0 ∨ k > (es.length : Int)
    · rw [mkChoose, if_pos h]
      simp only [Option.isSome_none, Bool.false_eq_true, false_iff]
      omega
    · rw [mkChoose, if_neg h]
      simp only [Option.isSome_some, true_iff]
      omega

/-- Claim C8: for QuorumSystem(reads = majority([a, b, c])) over three
capacity-1 nodes with identities 0, 1, 2, the read quorums and the write
quorums are both { {0,1}, {0,2}, {1,2} }. -/
theorem c8_majority_three :
    ((QuorumSystem.ofReads majThree).read_quorums).toFinset
        = ({{0, 1}, {0, 2}, {1, 2}} : Finset (Finset Nat)) ∧
    ((QuorumSystem.ofReads majThree).write_quorums).toFinset
        = ({{0, 1}, {0, 2}, {1, 2}} : Finset (Finset Nat)) := by
  decide

/-- Claim C9: every set yielded by quorums() of a constructible expression
is non-empty and a subset of the identities { n.x : n ∈ e.nodes() }. -/
theorem c9_quorums_shape {T : Type} [DecidableEq T] (e : Expr T)
    (hwf : wellFormed e = true) :
    ∀ q ∈ quorums e, q.Nonempty ∧ q ⊆ (nodes e).image Node.x :=
  fun q hq => quorums_shape_aux e hwf q hq

theorem c9_quorums_shape_witness :
    wellFormed majThree = true ∧
    ∀ q ∈ quorums majThree, q.Nonempty ∧ q ⊆ (nodes majThree).image Node.x :=
  ⟨by decide, c9_quorums_shape majThree (by decide)⟩

/-- Claim C10: for every non-empty child list es and every 1 ≤ k ≤ len(es),
the helper choose(k, es) — Or(es) when k = 1, And(es) when k = len(es) —
enumerates the same set of quorums (as a set of sets) as Choose(k, es). -/
theorem c10_choose_collapse {T : Type} [DecidableEq T] (k : Nat) (es : List (Expr T))
    (hk1 : 1 ≤ k) (hk2 : k ≤ es.length) :
    (quorums (choose k es)).toFinset = (quorums (Expr.choose k es)).toFinset := by
  unfold choose
  by_cases h1 : k = 1
  · subst h1
    rw [if_pos rfl, ← quorums_choose_one]
  · rw [if_neg h1]
    by_cases h2 : k = es.length
    · subst h2
      rw [if_pos rfl, ← quorums_choose_length]
    · rw [if_neg h2]

theorem c10_choose_collapse_witness :
    (1 ≤ 1 ∧ 1 ≤ [Expr.node nodeA, Expr.node nodeB].length) ∧
    (quorums (choose 1 [Expr.node nodeA, Expr.node nodeB])).toFinset =
      (quorums (Expr.choose 1 [Expr.node nodeA, Expr.node nodeB])).toFinset :=
  ⟨by decide, c10_choose_collapse 1 [Expr.node nodeA, Expr.node nodeB]
    (by decide) (by decide)⟩

end Quoracle
